import Mathlib

/-
  Verification of the encoding-conversion / chapter-scanning pipeline
  of ePub_Python3 (src/main.py) against its natural-language specification.

  Shallow embedding conventions:
  * bytes are modelled as `List Nat`, byte counts and character counts as `Nat`;
  * the external `chardet.detect` statistical inference is an oracle parameter
    (a function from the sampled bytes to an optional encoding name and a
    rational confidence);
  * the Qt signal emissions (`progress`, `status_update`, `finished`) and the
    chunk writes of the converter are recorded in an event trace;
  * the cooperative cancellation flag `_is_cancelled` is modelled as a function
    from observation index to `Bool`: the k-th read of the flag during a run
    returns `cancel k`.  A real flag is monotone (once set it stays set), which
    appears as a hypothesis where needed;
  * text decoding for the chapter scan is an oracle from encoding name to the
    lines the file iterator yields before either completing or raising
    `UnicodeError`.
-/

/-- Constant CHUNK_SIZE from src/main.py: 1 MB chunk size. -/
def CHUNK_SIZE : Nat := 1024 * 1024

/-- Constant SAMPLE_SIZE from src/main.py: 100 KB detection sample. -/
def SAMPLE_SIZE : Nat := 1024 * 100

/-- Constant PROGRESS_UPDATE_INTERVAL from src/main.py: progress update every 5 MB. -/
def PROGRESS_UPDATE_INTERVAL : Nat := 1024 * 1024 * 5

/-- Result dictionary of `chardet.detect`: an optional encoding name and a
confidence score.  `none` models Python's `None` encoding. -/
structure ChardetResult where
  encoding : Option String
  confidence : Rat

/-- Python truthiness applied in `return encoding if encoding else 'utf-8'`:
`None` and the empty string are falsy and are replaced by `"utf-8"`. -/
def encodingOrUtf8 : Option String → String
  | none => "utf-8"
  | some e => if e = "" then "utf-8" else e

/-- `FastFileEncodingWorker.detect_encoding_fast` (src/main.py lines 81-109),
success path (no I/O exception).  `chardet` is the oracle for `chardet.detect`;
`file` is the byte content of the file, so `f.read(n)` is `file.take n`. -/
def detect_encoding_fast (chardet : List Nat → ChardetResult) (file : List Nat) : String :=
  let sample := file.take SAMPLE_SIZE
  if sample = [] then "utf-8"
  else
    let result := chardet sample
    let enc :=
      if result.confidence < (7 : Rat) / 10 ∧ sample.length = SAMPLE_SIZE then
        (chardet (file.take (SAMPLE_SIZE * 3))).encoding
      else
        result.encoding
    encodingOrUtf8 enc

/-- Observable events of a worker run: chunk writes of the converter and the
three Qt signals.  The throttled status message "변환 중... X MB / Y MB" is
determined by the processed and total byte counts, so it is recorded as
`statusProcessing processed total`; "변환 완료!" is `statusComplete`. -/
inductive Event where
  | write (chunkUtf8Bytes : Nat)
  | progress (value : Nat)
  | statusProcessing (processedBytes fileSize : Nat)
  | statusComplete
  | statusDetecting
  | statusAlreadyUtf8
  | statusConvertStart (encoding : String)
  | finished (resultPath : String) (errorMsg : String)
deriving DecidableEq

/-- The post-loop `if not self._is_cancelled: progress.emit(100); status_update.emit("변환 완료!")`
of `convert_file_chunked`, reading the flag at observation index `idx`. -/
def finalEmit (cancel : Nat → Bool) (idx : Nat) : List Event :=
  if cancel idx then [] else [Event.progress 100, Event.statusComplete]

/-- Loop body of `FastFileEncodingWorker.convert_file_chunked`
(src/main.py lines 111-146).  `chunks` is the list of UTF-8 byte lengths of
the successive non-empty `fin.read(CHUNK_SIZE)` results; `step` is the
observation index of the next read of `_is_cancelled`; `processed` and
`lastUpdate` are the Python locals `processed_bytes` and
`last_progress_update`.  Returns the emitted event trace together with the
observation index of the final post-loop flag read.  The progress value
min(processed' * 100 / fileSize, 100) here idealizes the source's float
expression min(int((processed_bytes / file_size) * 100), 100) in exact
arithmetic; convGoF below computes the same expression bit-exactly in IEEE
binary64 — the two differ at reachable emissions (28 versus 29 at ratio
29/100, see the C8 theorems), though they agree on whether the clamped
value is 100, which is all the theorems about convGo use. -/
def convGo (fileSize : Nat) (cancel : Nat → Bool) :
    List Nat → Nat → Nat → Nat → List Event × Nat
  | chunks, step, processed, lastUpdate =>
    if cancel step then
      (finalEmit cancel (step + 1), step + 1)
    else
      match chunks with
      | [] => (finalEmit cancel (step + 1), step + 1)
      | c :: rest =>
        let processed' := processed + c
        let tail :=
          if PROGRESS_UPDATE_INTERVAL ≤ processed' - lastUpdate then
            let r := convGo fileSize cancel rest (step + 1) processed' processed'
            (Event.progress (min (processed' * 100 / fileSize) 100) ::
              Event.statusProcessing processed' fileSize :: r.1, r.2)
          else
            convGo fileSize cancel rest (step + 1) processed' lastUpdate
        (Event.write c :: tail.1, tail.2)

/-- `FastFileEncodingWorker.convert_file_chunked` started at observation
index 0 with zeroed counters. -/
def convert_file_chunked (fileSize : Nat) (cancel : Nat → Bool) (chunks : List Nat) :
    List Event × Nat :=
  convGo fileSize cancel chunks 0 0 0

/-- Recognizer for completion events. -/
def isFinished : Event → Bool
  | Event.finished _ _ => true
  | _ => false

/-- Recognizer for chunk-write events. -/
def isWrite : Event → Bool
  | Event.write _ => true
  | _ => false

/-- `FastFileEncodingWorker.run` (src/main.py lines 151-189), exception-free
paths.  `file` is the source byte content (so the converter's
`os.path.getsize` is `file.length`), `chunks` the UTF-8 byte lengths of the
decoded chunks, `filePath` the worker's `file_path`, and `utf8Path` the
derived `..._utf8...` destination.  Returns the event trace together with the
number of reads of `_is_cancelled` the run performed (reads have observation
indices `0, 1, ...`, so index `k` was read exactly when `k < result.2`). -/
def workerRun (chardet : List Nat → ChardetResult) (cancel : Nat → Bool)
    (file : List Nat) (chunks : List Nat) (filePath utf8Path : String) :
    List Event × Nat :=
  if cancel 0 then ([], 1)
  else
    let encoding := detect_encoding_fast chardet file
    let pre := [Event.statusDetecting, Event.progress 0]
    if cancel 1 then (pre, 2)
    else if encoding ≠ "" ∧ encoding.toLower ∈ ["utf-8", "utf-8-sig", "ascii"] then
      (pre ++ [Event.statusAlreadyUtf8, Event.progress 100, Event.finished filePath ""], 2)
    else
      let conv := convGo file.length cancel chunks 2 0 0
      let fin := if cancel (conv.2 + 1) then [] else [Event.finished utf8Path ""]
      (pre ++ Event.statusConvertStart encoding :: (conv.1 ++ fin), conv.2 + 2)

/-- `raw.rstrip("\r\n")`: remove all trailing carriage returns and line feeds. -/
def rstripCRLF (s : String) : String :=
  String.mk ((s.toList.reverse.dropWhile (fun c => c = '\r' ∨ c = '\n')).reverse)

/-- The dataclass `ChapterRow` of `MainWindow.find_chapter_list`
(src/main.py lines 1040-1045). -/
structure ChapterRow where
  selected : Bool
  name : String
  line_no : Nat
  path : String
deriving DecidableEq

/-- The scanning loop `for ln, raw in enumerate(f, start=1)` of
`MainWindow.find_chapter_list` (src/main.py lines 1051-1054) over the lines
one decode attempt yields.  A regular expression with `fullmatch` semantics is
modelled as a Boolean predicate on the whole (stripped) line. -/
def scanLinesGo (patterns : List (String → Bool)) : Nat → List String → List ChapterRow
  | _, [] => []
  | ln, raw :: rest =>
    let line := rstripCRLF raw
    if patterns.any (fun p => p line) then
      ⟨true, line, ln, ""⟩ :: scanLinesGo patterns (ln + 1) rest
    else
      scanLinesGo patterns (ln + 1) rest

/-- One full scan of a decoded line sequence, line numbers starting at 1. -/
def scanLines (patterns : List (String → Bool)) (lines : List String) : List ChapterRow :=
  scanLinesGo patterns 1 lines

/-- Outcome of `open(file_path, "r", encoding=enc, errors="strict")` followed
by line iteration: the lines the iterator yields before it either completes
(`ok = true`) or raises `UnicodeError` (`ok = false`).  On failure the lines
yielded before the error are still delivered to the loop body. -/
structure DecodeAttempt where
  lines : List String
  ok : Bool

/-- The encoding-fallback loop `for enc in ("utf-8-sig", "utf-8", "cp949")` of
`MainWindow.find_chapter_list` (src/main.py lines 1047-1057).  `rows` is the
accumulator which the source never resets between attempts: a failed attempt's
partial rows are kept, a successful attempt breaks out of the loop. -/
def findChapterGo (attempt : String → DecodeAttempt) (patterns : List (String → Bool)) :
    List String → List ChapterRow → List ChapterRow
  | [], rows => rows
  | enc :: rest, rows =>
    let a := attempt enc
    let rows' := rows ++ scanLines patterns a.lines
    if a.ok then rows' else findChapterGo attempt patterns rest rows'

/-- The chapter-scan portion of `MainWindow.find_chapter_list`: try
`utf-8-sig`, then `utf-8`, then `cp949`; no error value is produced when every
attempt fails — the accumulated rows are returned as they stand. -/
def find_chapter_rows (attempt : String → DecodeAttempt)
    (patterns : List (String → Bool)) : List ChapterRow :=
  findChapterGo attempt patterns ["utf-8-sig", "utf-8", "cp949"] []

/-- `ChapterTableModel._seq_for_row` (src/main.py lines 1074-1081): `none`
models the empty string returned for an unselected row, `some cnt` the count
of selected rows among indices `0 .. row_idx`. -/
def seq_for_row (data : List ChapterRow) (row_idx : Nat) (h : row_idx < data.length) :
    Option Nat :=
  if (data.get ⟨row_idx, h⟩).selected = false then none
  else some (((data.take (row_idx + 1)).filter (fun r => r.selected)).length)

/-- `ChapterTableModel.selected_count` (src/main.py lines 1071-1072). -/
def selected_count (data : List ChapterRow) : Nat :=
  (data.filter (fun r => r.selected)).length

/-- Replace the `selected` field of one row (the loop body of
`set_all_selected`). -/
def setSelected (r : ChapterRow) (b : Bool) : ChapterRow :=
  ⟨b, r.name, r.line_no, r.path⟩

/-- `ChapterTableModel.set_all_selected` (src/main.py lines 1143-1149):
early-returns on an empty model, otherwise overwrites every row's `selected`. -/
def set_all_selected (data : List ChapterRow) (checked : Bool) : List ChapterRow :=
  if data.length = 0 then data else data.map (fun r => setSelected r checked)

/-- `ChapterTableModel.are_all_selected` (src/main.py lines 1151-1152). -/
def are_all_selected (data : List ChapterRow) : Bool :=
  decide (0 < data.length) && data.all (fun r => r.selected)

/-- The header-click handler `on_header_clicked` for the selection column
(src/main.py lines 1226-1229): `set_all_selected(not are_all_selected())`.
This is the spec's `toggleAll`. -/
def toggleAll (data : List ChapterRow) : List ChapterRow :=
  set_all_selected data (!are_all_selected data)

/-- The progress formula claimed by the spec, over exact arithmetic:
min(100, floor(processedUTF8Bytes / totalSourceBytes * 100)); the floor of
the rational (p / t) * 100 is natural division p * 100 / t.  The source
instead evaluates the expression in IEEE binary64 doubles (pyIntDivTimes100
below), which can fall one below this value at reachable emissions. -/
def specProgress (processedUTF8Bytes totalSourceBytes : Nat) : Nat :=
  min 100 (processedUTF8Bytes * 100 / totalSourceBytes)

/-- An IEEE binary64 value m * 2^e; produced by roundPosRat with m of at
most 53 bits (kept unnormalized after a round-up to 2^53, which is still an
exactly representable double). -/
structure Binary64 where
  m : Nat
  e : Int

/-- Scale the positive fraction num/den by powers of two, adjusting the
exponent so that (num / den) * 2^e stays constant, until
2^52 <= num/den < 2^53.  Structural recursion on fuel; the fuel covers every
quotient within (and far beyond) the binary64 normal range, so it is never
exhausted on a representable value. -/
def scaleLoop : Nat → Nat → Nat → Int → Nat × Nat × Int
  | 0, num, den, e => (num, den, e)
  | fuel + 1, num, den, e =>
    if num < 2 ^ 52 * den then scaleLoop fuel (num * 2) den (e - 1)
    else if 2 ^ 53 * den ≤ num then scaleLoop fuel num (den * 2) (e + 1)
    else (num, den, e)

/-- Correctly rounded binary64 of the positive rational num/den (values in
the normal range): scale to significand form and round the integer division
to nearest, ties to even. -/
def roundPosRat (num den : Nat) : Binary64 :=
  let s := scaleLoop 4400 num den 0
  let q := s.1 / s.2.1
  let r := s.1 % s.2.1
  let m :=
    if 2 * r < s.2.1 then q
    else if s.2.1 < 2 * r then q + 1
    else if q % 2 = 0 then q else q + 1
  ⟨m, s.2.2⟩

/-- Binary64 multiplication by the exact constant 100 with correct rounding
(the second rounding step of the expression (p / f) * 100). -/
def mulRound100 (x : Binary64) : Binary64 :=
  let y := roundPosRat (x.m * 100) 1
  ⟨y.m, y.e + x.e⟩

/-- Truncation toward zero of a nonnegative binary64 value — Python's
int(). -/
def b64FloorToNat (x : Binary64) : Nat :=
  if 0 ≤ x.e then x.m * 2 ^ x.e.toNat else x.m / 2 ^ (-x.e).toNat

/-- int((p / f) * 100) exactly as the source computes it: the true division
p / f correctly rounded to binary64, the multiplication by 100 correctly
rounded to binary64, then truncation toward zero.  Bit-exact for every
quotient in the binary64 normal range, which covers every reachable
processed-bytes / file-size pair; f = 0 raises in Python and is excluded by
hypothesis wherever it matters. -/
def pyIntDivTimes100 (p f : Nat) : Nat :=
  b64FloorToNat (mulRound100 (roundPosRat p f))

/-- The converter loop with the progress value computed as the source
computes it: min(int((processed_bytes / file_size) * 100), 100) in IEEE
binary64 arithmetic.  Identical to convGo in every other respect. -/
def convGoF (fileSize : Nat) (cancel : Nat → Bool) :
    List Nat → Nat → Nat → Nat → List Event × Nat
  | chunks, step, processed, lastUpdate =>
    if cancel step then
      (finalEmit cancel (step + 1), step + 1)
    else
      match chunks with
      | [] => (finalEmit cancel (step + 1), step + 1)
      | c :: rest =>
        let processed' := processed + c
        let tail :=
          if PROGRESS_UPDATE_INTERVAL ≤ processed' - lastUpdate then
            let r := convGoF fileSize cancel rest (step + 1) processed' processed'
            (Event.progress (min (pyIntDivTimes100 processed' fileSize) 100) ::
              Event.statusProcessing processed' fileSize :: r.1, r.2)
          else
            convGoF fileSize cancel rest (step + 1) processed' lastUpdate
        (Event.write c :: tail.1, tail.2)

/-- convert_file_chunked with the binary64-faithful progress value, started
at observation index 0 with zeroed counters. -/
def convert_file_chunkedF (fileSize : Nat) (cancel : Nat → Bool) (chunks : List Nat) :
    List Event × Nat :=
  convGoF fileSize cancel chunks 0 0 0

/-- The amended spec-side progress value: min(100, int((p / f) * 100)) with
the inner expression evaluated in binary64, as the source evaluates it. -/
def specProgressF (processedUTF8Bytes totalSourceBytes : Nat) : Nat :=
  min 100 (pyIntDivTimes100 processedUTF8Bytes totalSourceBytes)

/-- The amended spec-side event trace of a normal (non-cancelled) run: per
chunk, the chunk is written; the progress callback fires only when at least
5 MB of cumulative UTF-8 output has accumulated since the previous emission,
carrying the specProgressF value and its status message; and completion
emits the value 100 exactly once in addition, with the completion status. -/
def specNormalTraceF (totalSourceBytes : Nat) : List Nat → Nat → Nat → List Event
  | [], _, _ => [Event.progress 100, Event.statusComplete]
  | c :: rest, processed, lastEmitted =>
    let processed' := processed + c
    if PROGRESS_UPDATE_INTERVAL ≤ processed' - lastEmitted then
      Event.write c :: Event.progress (specProgressF processed' totalSourceBytes) ::
        Event.statusProcessing processed' totalSourceBytes ::
        specNormalTraceF totalSourceBytes rest processed' processed'
    else
      Event.write c :: specNormalTraceF totalSourceBytes rest processed' lastEmitted

/-- Claim C9: encoding detection applied to a zero-length file returns the
utf-8 guess (the code returns the encoding name "utf-8"; the confidence 1.0
of the spec's EncodingGuess has no counterpart in the code, which returns
only a name). -/
theorem detect_encoding_fast_empty_file (chardet : List Nat → ChardetResult) :
    detect_encoding_fast chardet [] = "utf-8" := by
  simp [detect_encoding_fast]

/-- Claim C6: if the first sample's confidence is below 0.70 and the sample
was read at exactly the full sample size, detection re-reads a 300 KB sample
and reports the second result's encoding unconditionally (no hypothesis on
the second confidence, hence no third attempt), with a null or empty name
mapped to utf-8. -/
theorem detect_encoding_fast_resample (chardet : List Nat → ChardetResult)
    (file : List Nat)
    (hconf : (chardet (file.take SAMPLE_SIZE)).confidence < (7 : Rat) / 10)
    (hlen : (file.take SAMPLE_SIZE).length = SAMPLE_SIZE) :
    detect_encoding_fast chardet file =
      encodingOrUtf8 (chardet (file.take (SAMPLE_SIZE * 3))).encoding := by
  have hne : file.take SAMPLE_SIZE ≠ [] := by
    intro h
    rw [h] at hlen
    simp [SAMPLE_SIZE] at hlen
  simp only [detect_encoding_fast]
  rw [if_neg hne, if_pos ⟨hconf, hlen⟩]

/-- Witness for C6: a 100 KB file on which chardet reports no encoding with
confidence 0 in both rounds; the reported encoding is utf-8, the second
round's null result mapped to utf-8. -/
theorem detect_encoding_fast_resample_witness :
    ((((fun _ => ⟨none, 0⟩ : List Nat → ChardetResult)
        ((List.replicate SAMPLE_SIZE 0).take SAMPLE_SIZE)).confidence < (7 : Rat) / 10)
      ∧ ((List.replicate SAMPLE_SIZE 0).take SAMPLE_SIZE).length = SAMPLE_SIZE)
    ∧ detect_encoding_fast (fun _ => ⟨none, 0⟩) (List.replicate SAMPLE_SIZE 0) = "utf-8" := by
  refine ⟨⟨by norm_num, by simp⟩, ?_⟩
  exact (detect_encoding_fast_resample (fun _ => ⟨none, 0⟩) (List.replicate SAMPLE_SIZE 0)
    (by norm_num) (by simp)).trans rfl

/-- Claim C3: over a row sequence whose line numbers are strictly increasing
(as a scan produces them), a selected row's sequence number is the count of
selected rows whose line number is at most its own — equivalently the 1-based
count of selected rows at or before its index in file order — and an
unselected row has no sequence number. -/
theorem seq_for_row_spec (data : List ChapterRow) (i : Nat) (h : i < data.length)
    (hsort : data.Pairwise (fun a b => a.line_no < b.line_no)) :
    seq_for_row data i h =
      if (data.get ⟨i, h⟩).selected then
        some ((data.filter
          (fun r => r.selected && decide (r.line_no ≤ (data.get ⟨i, h⟩).line_no))).length)
      else none := by
  set cur := data.get ⟨i, h⟩ with hcur
  have hpw := List.pairwise_iff_get.mp hsort
  by_cases hsel : cur.selected = true
  · rw [if_pos hsel]
    unfold seq_for_row
    rw [if_neg (by rw [← hcur, hsel]; simp)]
    congr 1
    have hsplit :
        data.filter (fun r => r.selected && decide (r.line_no ≤ cur.line_no)) =
          (data.take (i + 1)).filter (fun r => r.selected && decide (r.line_no ≤ cur.line_no))
            ++ (data.drop (i + 1)).filter
                (fun r => r.selected && decide (r.line_no ≤ cur.line_no)) := by
      conv_lhs => rw [← List.take_append_drop (i + 1) data]
      rw [List.filter_append]
    have hdrop :
        (data.drop (i + 1)).filter
          (fun r => r.selected && decide (r.line_no ≤ cur.line_no)) = [] := by
      rw [List.filter_eq_nil_iff]
      intro a ha
      obtain ⟨n, rfl⟩ := List.mem_iff_get.mp ha
      have hn : (i + 1) + n.val < data.length := by
        have := n.isLt
        simp only [List.length_drop] at this
        omega
      have hget : (data.drop (i + 1)).get n = data.get ⟨(i + 1) + n.val, hn⟩ := by
        simp
      have hlt : cur.line_no < ((data.drop (i + 1)).get n).line_no := by
        rw [hget, hcur]
        exact hpw ⟨i, h⟩ ⟨(i + 1) + n.val, hn⟩ (by simp; omega)
      simp only [Bool.and_eq_true, decide_eq_true_eq, not_and]
      intro _
      omega
    have htake :
        (data.take (i + 1)).filter
            (fun r => r.selected && decide (r.line_no ≤ cur.line_no)) =
          (data.take (i + 1)).filter (fun r => r.selected) := by
      apply List.filter_congr
      intro a ha
      obtain ⟨n, rfl⟩ := List.mem_iff_get.mp ha
      have hn : n.val < data.length := by
        have := n.isLt
        simp only [List.length_take] at this
        omega
      have hni : n.val ≤ i := by
        have := n.isLt
        simp only [List.length_take] at this
        omega
      have hget : (data.take (i + 1)).get n = data.get ⟨n.val, hn⟩ := by
        simp
      have hle : ((data.take (i + 1)).get n).line_no ≤ cur.line_no := by
        rcases Nat.lt_or_ge n.val i with hlt | hge
        · have := hpw ⟨n.val, hn⟩ ⟨i, h⟩ (by simpa)
          rw [hget, hcur]
          omega
        · have : n.val = i := by omega
          rw [hget, hcur]
          simp [this]
      rw [hget] at hle
      simp only [List.get_eq_getElem] at hle
      simp [hle]
    rw [hsplit, hdrop, htake, List.append_nil]
  · rw [if_neg hsel]
    unfold seq_for_row
    rw [if_pos (by rw [← hcur]; simpa using hsel)]

/-- Witness for C3: a three-row table with line numbers 1, 3, 5 and the middle
row unselected; the last row is selected and its sequence number is 2, the
count of selected rows with line number at most 5. -/
theorem seq_for_row_spec_witness :
    ((2 : Nat) < ([⟨true, "a", 1, ""⟩, ⟨false, "b", 3, ""⟩,
        ⟨true, "c", 5, ""⟩] : List ChapterRow).length
      ∧ ([⟨true, "a", 1, ""⟩, ⟨false, "b", 3, ""⟩,
            ⟨true, "c", 5, ""⟩] : List ChapterRow).Pairwise
          (fun a b => a.line_no < b.line_no))
    ∧ seq_for_row [⟨true, "a", 1, ""⟩, ⟨false, "b", 3, ""⟩, ⟨true, "c", 5, ""⟩] 2
        (by decide) = some 2 := by
  refine ⟨⟨by decide, by decide⟩, ?_⟩
  exact (seq_for_row_spec
    [⟨true, "a", 1, ""⟩, ⟨false, "b", 3, ""⟩, ⟨true, "c", 5, ""⟩] 2
    (by decide) (by decide)).trans (by decide)

/-- Overwriting `selected` with the value it already has leaves a row list
unchanged. -/
theorem map_setSelected_eq_self {data : List ChapterRow} {b : Bool}
    (h : ∀ r ∈ data, r.selected = b) :
    data.map (fun r => setSelected r b) = data := by
  induction data with
  | nil => rfl
  | cons r rest ih =>
    have hr : r.selected = b := h r (by simp)
    have hsr : setSelected r b = r := by
      cases r
      simp_all [setSelected]
    simp only [List.map_cons, hsr, List.cons.injEq, true_and]
    exact ih (fun x hx => h x (by simp [hx]))

/-- Counterexample to claim C5: on a two-row table with a mixed selection
state (first row selected, second not), two header toggles leave both rows
unselected instead of restoring the original state. -/
theorem toggleAll_twice_not_involutive :
    (toggleAll (toggleAll [⟨true, "a", 1, ""⟩, ⟨false, "b", 2, ""⟩])).map
        (fun r => r.selected) = [false, false]
      ∧ ([⟨true, "a", 1, ""⟩, (⟨false, "b", 2, ""⟩ : ChapterRow)]).map
          (fun r => r.selected) = [true, false] := by
  constructor
  · decide
  · decide

/-- Claim C5 as amended: two successive header toggles restore the original
row states (and hence the derived sequence numbers) exactly when the initial
selection is uniform — every row selected, or every row unselected (including
the empty table); from any mixed state the second toggle leaves every row
unselected. -/
theorem toggleAll_twice (data : List ChapterRow) :
    toggleAll (toggleAll data) =
      if data.all (fun r => r.selected) || data.all (fun r => !r.selected) then data
      else set_all_selected data false := by
  rcases data with _ | ⟨r0, rest⟩
  · simp [toggleAll, set_all_selected, are_all_selected]
  · by_cases hall : (r0 :: rest).all (fun r => r.selected) = true
    · have h1 : are_all_selected (r0 :: rest) = true := by
        simp [are_all_selected, hall]
      have t1 : toggleAll (r0 :: rest) =
          (r0 :: rest).map (fun r => setSelected r false) := by
        simp [toggleAll, h1, set_all_selected]
      have h2 : are_all_selected ((r0 :: rest).map (fun r => setSelected r false)) = false := by
        simp [are_all_selected, List.all_map, setSelected, Function.comp]
      have t2 : toggleAll ((r0 :: rest).map (fun r => setSelected r false)) =
          (r0 :: rest).map (fun r => setSelected r true) := by
        simp only [toggleAll, h2, Bool.not_false, set_all_selected]
        rw [if_neg (by simp), List.map_map]
        rfl
      rw [t1, t2, map_setSelected_eq_self (fun r hr => List.all_eq_true.mp hall r hr),
        if_pos (by simp [hall])]
    · have hallf : (r0 :: rest).all (fun r => r.selected) = false :=
        Bool.eq_false_iff.mpr hall
      have h1 : are_all_selected (r0 :: rest) = false := by
        simp [are_all_selected, hallf]
      have t1 : toggleAll (r0 :: rest) =
          (r0 :: rest).map (fun r => setSelected r true) := by
        simp [toggleAll, h1, set_all_selected]
      have h2 : are_all_selected ((r0 :: rest).map (fun r => setSelected r true)) = true := by
        simp [are_all_selected, List.all_map, setSelected, Function.comp]
      have t2 : toggleAll ((r0 :: rest).map (fun r => setSelected r true)) =
          (r0 :: rest).map (fun r => setSelected r false) := by
        simp only [toggleAll, h2, Bool.not_true, set_all_selected]
        rw [if_neg (by simp), List.map_map]
        rfl
      rw [t1, t2]
      by_cases hnone : (r0 :: rest).all (fun r => !r.selected) = true
      · rw [map_setSelected_eq_self
            (fun r hr => by simpa using List.all_eq_true.mp hnone r hr),
          if_pos (by simp [hnone])]
      · rw [if_neg (by simp [hallf, Bool.eq_false_iff.mpr hnone])]
        simp [set_all_selected]

/-- A scan pass over lines none of which matches any pattern yields no rows. -/
theorem scanLinesGo_eq_nil (patterns : List (String → Bool)) (lines : List String)
    (ln : Nat) (h : ∀ raw ∈ lines, ∀ p ∈ patterns, p (rstripCRLF raw) = false) :
    scanLinesGo patterns ln lines = [] := by
  induction lines generalizing ln with
  | nil => rfl
  | cons raw rest ih =>
    have hany : patterns.any (fun p => p (rstripCRLF raw)) = false := by
      rw [List.any_eq_false]
      intro p hp
      simp [h raw (by simp) p hp]
    simp only [scanLinesGo, hany]
    simp only [Bool.false_eq_true, if_false]
    exact ih (ln + 1) (fun r hr => h r (by simp [hr]))

/-- Counterexample to claim C2: an input on which every candidate encoding
fails to decode (yielding no lines) produces exactly the same scan result —
the empty row list, with no error indication — as an input that decodes
successfully under the first candidate encoding but contains no matching
line.  The two outcomes the claim requires to be distinct are equal. -/
theorem scan_all_fail_indistinguishable :
    find_chapter_rows (fun _ => ⟨[], false⟩) [fun s => s == "Chapter 1"] =
      find_chapter_rows
        (fun enc => if enc = "utf-8-sig" then ⟨["hello"], true⟩ else ⟨[], false⟩)
        [fun s => s == "Chapter 1"] := by
  decide

/-- Claim C2 as amended: when no candidate encoding decodes the whole file,
the scan silently returns the rows accumulated from the partial attempts —
the empty list whenever the failed attempts yielded no lines — with no error
value of any kind; this is identical to the result of a scan that decodes
successfully but finds zero matching lines, so the two cases are conflated. -/
theorem scan_all_fail_conflated (attempt attempt2 : String → DecodeAttempt)
    (patterns patterns2 : List (String → Bool))
    (hfail : ∀ enc, (attempt enc).ok = false)
    (hempty : ∀ enc, (attempt enc).lines = [])
    (hok : (attempt2 "utf-8-sig").ok = true)
    (hnomatch : ∀ raw ∈ (attempt2 "utf-8-sig").lines,
      ∀ p ∈ patterns2, p (rstripCRLF raw) = false) :
    find_chapter_rows attempt patterns = find_chapter_rows attempt2 patterns2 := by
  have hL : find_chapter_rows attempt patterns = [] := by
    simp [find_chapter_rows, findChapterGo, hfail, hempty, scanLines, scanLinesGo]
  have hR : find_chapter_rows attempt2 patterns2 = [] := by
    simp only [find_chapter_rows, findChapterGo, hok, if_true, List.nil_append]
    exact scanLinesGo_eq_nil patterns2 _ 1 hnomatch
  rw [hL, hR]

/-- Witness for the amended C2: concrete all-fail and successful-but-empty
decode oracles on which both hypotheses hold and the two scans agree. -/
theorem scan_all_fail_conflated_witness :
    ((∀ enc, ((fun _ => ⟨[], false⟩ : String → DecodeAttempt) enc).ok = false)
      ∧ (∀ enc, ((fun _ => ⟨[], false⟩ : String → DecodeAttempt) enc).lines = [])
      ∧ (((fun enc => if enc = "utf-8-sig" then ⟨["hello"], true⟩ else ⟨[], false⟩ :
            String → DecodeAttempt) "utf-8-sig").ok = true)
      ∧ (∀ raw ∈ (((fun enc => if enc = "utf-8-sig" then ⟨["hello"], true⟩
              else ⟨[], false⟩ : String → DecodeAttempt)) "utf-8-sig").lines,
          ∀ p ∈ [fun s => s == "nomatch"], p (rstripCRLF raw) = false))
    ∧ find_chapter_rows (fun _ => ⟨[], false⟩) [fun s => s == "nomatch"] =
        find_chapter_rows
          (fun enc => if enc = "utf-8-sig" then ⟨["hello"], true⟩ else ⟨[], false⟩)
          [fun s => s == "nomatch"] := by
  refine ⟨⟨fun enc => rfl, fun enc => rfl, rfl, ?_⟩, ?_⟩
  · intro raw hraw p hp
    simp only [List.mem_singleton] at hp
    simp at hraw
    subst hraw hp
    decide
  · exact scan_all_fail_conflated _ _ _ _ (fun enc => rfl) (fun enc => rfl) rfl
      (by
        intro raw hraw p hp
        simp only [List.mem_singleton] at hp
        simp at hraw
        subst hraw hp
        decide)

/-- Claim C4, failing input: a cp949-encoded file whose first line is
"Chapter 1" (pure ASCII, so the utf-8-sig and utf-8 attempts each yield it
before hitting undecodable bytes and raising UnicodeError) and which decodes
fully only under cp949.  Because `find_chapter_list` never resets `rows`
between attempts, the matching first line is recorded three times — once per
failed attempt and once in the successful scan — so the result has line
numbers 1, 1, 1, 3 instead of the single records 1, 3 with strictly
increasing line numbers that the claim (and the spec's ChapterRecord
invariant) requires. -/
theorem find_chapter_rows_duplicates_on_partial_decode :
    (find_chapter_rows
        (fun enc =>
          if enc = "cp949" then
            ⟨["Chapter 1\n", "한국어 본문 줄\n", "Chapter 2\n"], true⟩
          else ⟨["Chapter 1\n"], false⟩)
        [fun s => s == "Chapter 1" || s == "Chapter 2"]).map
      (fun r => (r.line_no, r.name)) =
      [(1, "Chapter 1"), (1, "Chapter 1"), (1, "Chapter 1"), (3, "Chapter 2")] := by
  decide

/-- Unfolding convGo when the flag reads true at the loop head. -/
theorem convGo_cancel (fileSize : Nat) (cancel : Nat → Bool) (chunks : List Nat)
    (step processed lastUpdate : Nat) (h : cancel step = true) :
    convGo fileSize cancel chunks step processed lastUpdate =
      (finalEmit cancel (step + 1), step + 1) := by
  unfold convGo
  simp [h]

/-- Unfolding convGo when the read returns the empty string (no chunks left). -/
theorem convGo_nil (fileSize : Nat) (cancel : Nat → Bool)
    (step processed lastUpdate : Nat) (h : cancel step = false) :
    convGo fileSize cancel [] step processed lastUpdate =
      (finalEmit cancel (step + 1), step + 1) := by
  unfold convGo
  simp [h]

/-- Unfolding convGo on a chunk when the flag reads false. -/
theorem convGo_cons (fileSize : Nat) (cancel : Nat → Bool) (c : Nat) (rest : List Nat)
    (step processed lastUpdate : Nat) (h : cancel step = false) :
    convGo fileSize cancel (c :: rest) step processed lastUpdate =
      if PROGRESS_UPDATE_INTERVAL ≤ processed + c - lastUpdate then
        (Event.write c :: Event.progress (min ((processed + c) * 100 / fileSize) 100) ::
          Event.statusProcessing (processed + c) fileSize ::
            (convGo fileSize cancel rest (step + 1) (processed + c) (processed + c)).1,
          (convGo fileSize cancel rest (step + 1) (processed + c) (processed + c)).2)
      else
        (Event.write c :: (convGo fileSize cancel rest (step + 1) (processed + c) lastUpdate).1,
          (convGo fileSize cancel rest (step + 1) (processed + c) lastUpdate).2) := by
  conv_lhs => unfold convGo
  simp only [h, Bool.false_eq_true, if_false]
  by_cases hth : PROGRESS_UPDATE_INTERVAL ≤ processed + c - lastUpdate
  · simp [hth]
  · simp [hth]

/-- The converter loop never emits a completion signal. -/
theorem convGo_no_finished (fileSize : Nat) (cancel : Nat → Bool) (chunks : List Nat)
    (step processed lastUpdate : Nat) :
    (convGo fileSize cancel chunks step processed lastUpdate).1.countP isFinished = 0 := by
  induction chunks generalizing step processed lastUpdate with
  | nil =>
    by_cases h : cancel step
    · rw [convGo_cancel _ _ _ _ _ _ h]
      unfold finalEmit
      by_cases hf : cancel (step + 1) <;> simp [hf, isFinished]
    · rw [convGo_nil _ _ _ _ _ (by simpa using h)]
      unfold finalEmit
      by_cases hf : cancel (step + 1) <;> simp [hf, isFinished]
  | cons c rest ih =>
    by_cases h : cancel step
    · rw [convGo_cancel _ _ _ _ _ _ h]
      unfold finalEmit
      by_cases hf : cancel (step + 1) <;> simp [hf, isFinished]
    · rw [convGo_cons _ _ _ _ _ _ _ (by simpa using h)]
      by_cases hth : PROGRESS_UPDATE_INTERVAL ≤ processed + c - lastUpdate
      · simp [hth, isFinished, List.countP_cons, ih]
      · simp [hth, isFinished, List.countP_cons, ih]

/-- If the completion status message appears in the converter's trace, the
final post-loop flag read returned false. -/
theorem convGo_statusComplete_mem (fileSize : Nat) (cancel : Nat → Bool) (chunks : List Nat)
    (step processed lastUpdate : Nat)
    (h : Event.statusComplete ∈ (convGo fileSize cancel chunks step processed lastUpdate).1) :
    cancel (convGo fileSize cancel chunks step processed lastUpdate).2 = false := by
  induction chunks generalizing step processed lastUpdate with
  | nil =>
    by_cases hc : cancel step
    · rw [convGo_cancel _ _ _ _ _ _ hc] at h ⊢
      unfold finalEmit at h
      by_cases hf : cancel (step + 1) <;> simp_all
    · rw [convGo_nil _ _ _ _ _ (by simpa using hc)] at h ⊢
      unfold finalEmit at h
      by_cases hf : cancel (step + 1) <;> simp_all
  | cons c rest ih =>
    by_cases hc : cancel step
    · rw [convGo_cancel _ _ _ _ _ _ hc] at h ⊢
      unfold finalEmit at h
      by_cases hf : cancel (step + 1) <;> simp_all
    · rw [convGo_cons _ _ _ _ _ _ _ (by simpa using hc)] at h ⊢
      by_cases hth : PROGRESS_UPDATE_INTERVAL ≤ processed + c - lastUpdate
      · simp only [hth, if_true, List.mem_cons] at h
        rcases h with h | h | h | h
        · exact absurd h (by simp)
        · exact absurd h (by simp)
        · exact absurd h (by simp)
        · simp only [hth, if_true]
          exact ih _ _ _ h
      · simp only [hth, if_false, List.mem_cons] at h
        rcases h with h | h
        · exact absurd h (by simp)
        · simp only [hth, if_false]
          exact ih _ _ _ h

/-- If a progress event of value 100 appears in the converter's trace, then
either it is the final completion emission (so the final flag read returned
false), or it is a throttled emission, which forces the cumulative UTF-8
output to have reached the (positive) source byte size. -/
theorem convGo_progress100_mem (fileSize : Nat) (cancel : Nat → Bool) (chunks : List Nat)
    (step processed lastUpdate : Nat)
    (h : Event.progress 100 ∈ (convGo fileSize cancel chunks step processed lastUpdate).1) :
    cancel (convGo fileSize cancel chunks step processed lastUpdate).2 = false
      ∨ (0 < fileSize ∧ fileSize ≤ processed + chunks.sum) := by
  induction chunks generalizing step processed lastUpdate with
  | nil =>
    left
    by_cases hc : cancel step
    · rw [convGo_cancel _ _ _ _ _ _ hc] at h ⊢
      unfold finalEmit at h
      by_cases hf : cancel (step + 1) <;> simp_all
    · rw [convGo_nil _ _ _ _ _ (by simpa using hc)] at h ⊢
      unfold finalEmit at h
      by_cases hf : cancel (step + 1) <;> simp_all
  | cons c rest ih =>
    by_cases hc : cancel step
    · left
      rw [convGo_cancel _ _ _ _ _ _ hc] at h ⊢
      unfold finalEmit at h
      by_cases hf : cancel (step + 1) <;> simp_all
    · rw [convGo_cons _ _ _ _ _ _ _ (by simpa using hc)] at h ⊢
      by_cases hth : PROGRESS_UPDATE_INTERVAL ≤ processed + c - lastUpdate
      · simp only [hth, if_true, List.mem_cons] at h
        rcases h with h | h | h | h
        · exact absurd h (by simp)
        · -- the throttled value is 100: output has reached the source size
          right
          have h100 : 100 ≤ (processed + c) * 100 / fileSize := by
            have := (Event.progress.injEq _ _).mp h.symm
            omega
          have hfs : 0 < fileSize := by
            by_contra hz
            have : fileSize = 0 := by omega
            rw [this] at h100
            simp at h100
          refine ⟨hfs, ?_⟩
          have := (Nat.le_div_iff_mul_le hfs).mp h100
          have hle : fileSize ≤ processed + c := by nlinarith
          have : c ≤ (c :: rest).sum := by simp [Nat.le_add_right]
          omega
        · exact absurd h (by simp)
        · rcases ih _ _ _ h with hl | hr
          · left
            simpa [hth] using hl
          · right
            refine ⟨hr.1, ?_⟩
            have : (c :: rest).sum = c + rest.sum := by simp
            omega
      · simp only [hth, if_false, List.mem_cons] at h
        rcases h with h | h
        · exact absurd h (by simp)
        · rcases ih _ _ _ h with hl | hr
          · left
            simpa [hth] using hl
          · right
            refine ⟨hr.1, ?_⟩
            have : (c :: rest).sum = c + rest.sum := by simp
            omega

/-- Under a monotone cancellation flag set by observation `k`, the converter
writes at most `k - step` further chunks: no chunk is written at or after the
observation where the flag is seen. -/
theorem convGo_writes_le (fileSize : Nat) (cancel : Nat → Bool) (chunks : List Nat)
    (step processed lastUpdate k : Nat)
    (mono : ∀ i j, i ≤ j → cancel i = true → cancel j = true)
    (hk : cancel k = true) :
    (convGo fileSize cancel chunks step processed lastUpdate).1.countP isWrite ≤ k - step := by
  induction chunks generalizing step processed lastUpdate with
  | nil =>
    by_cases hc : cancel step
    · rw [convGo_cancel _ _ _ _ _ _ hc]
      unfold finalEmit
      by_cases hf : cancel (step + 1) <;> simp [hf, isWrite]
    · rw [convGo_nil _ _ _ _ _ (by simpa using hc)]
      unfold finalEmit
      by_cases hf : cancel (step + 1) <;> simp [hf, isWrite]
  | cons c rest ih =>
    by_cases hc : cancel step
    · rw [convGo_cancel _ _ _ _ _ _ hc]
      unfold finalEmit
      by_cases hf : cancel (step + 1) <;> simp [hf, isWrite]
    · have hstep : step < k := by
        by_contra hge
        exact (by simpa [hc] using mono k step (by omega) hk : False)
      rw [convGo_cons _ _ _ _ _ _ _ (by simpa using hc)]
      by_cases hth : PROGRESS_UPDATE_INTERVAL ≤ processed + c - lastUpdate
      · have hrec := ih (step + 1) (processed + c) (processed + c)
        simp only [hth, if_true]
        simp [List.countP_cons, isWrite]
        omega
      · have hrec := ih (step + 1) (processed + c) lastUpdate
        simp only [hth, if_false]
        simp [List.countP_cons, isWrite]
        omega

/-- Every throttled status message in the converter's trace reports a
cumulative output of at least 5 MB against the converter's own file size. -/
theorem convGo_statusProcessing_mem (fileSize : Nat) (cancel : Nat → Bool)
    (chunks : List Nat) (step processed lastUpdate : Nat) (q g : Nat)
    (h : Event.statusProcessing q g ∈
      (convGo fileSize cancel chunks step processed lastUpdate).1) :
    PROGRESS_UPDATE_INTERVAL ≤ q ∧ g = fileSize := by
  induction chunks generalizing step processed lastUpdate with
  | nil =>
    by_cases hc : cancel step
    · rw [convGo_cancel _ _ _ _ _ _ hc] at h
      unfold finalEmit at h
      by_cases hf : cancel (step + 1) <;> simp_all
    · rw [convGo_nil _ _ _ _ _ (by simpa using hc)] at h
      unfold finalEmit at h
      by_cases hf : cancel (step + 1) <;> simp_all
  | cons c rest ih =>
    by_cases hc : cancel step
    · rw [convGo_cancel _ _ _ _ _ _ hc] at h
      unfold finalEmit at h
      by_cases hf : cancel (step + 1) <;> simp_all
    · rw [convGo_cons _ _ _ _ _ _ _ (by simpa using hc)] at h
      by_cases hth : PROGRESS_UPDATE_INTERVAL ≤ processed + c - lastUpdate
      · simp only [hth, if_true, List.mem_cons] at h
        rcases h with h | h | h | h
        · exact absurd h (by simp)
        · exact absurd h (by simp)
        · have hq := (Event.statusProcessing.injEq _ _ _ _).mp h
          refine ⟨?_, hq.2⟩
          have : PROGRESS_UPDATE_INTERVAL ≤ processed + c := by omega
          omega
        · exact ih _ _ _ h
      · simp only [hth, if_false, List.mem_cons] at h
        rcases h with h | h
        · exact absurd h (by simp)
        · exact ih _ _ _ h

/-- Counterexample to claim C7: a 4 MB source whose decoded chunks expand to
3 MB of UTF-8 each (as cp949 Korean text does), with cancellation observed at
the third flag read — after two processed chunks.  The throttled emission
after the second chunk already carries the progress value 100 (output 6 MB
against a 4 MB source), so the cancelled run does emit a progress event of
value 100, while no completion status is emitted and exactly two chunks were
written. -/
theorem convert_cancelled_still_emits_100 :
    Event.progress 100 ∈
        (convert_file_chunked 4194304 (fun n => decide (2 ≤ n)) [3145728, 3145728]).1
      ∧ Event.statusComplete ∉
          (convert_file_chunked 4194304 (fun n => decide (2 ≤ n)) [3145728, 3145728]).1
      ∧ (fun n => decide (2 ≤ n)) 2 = true
      ∧ (convert_file_chunked 4194304 (fun n => decide (2 ≤ n))
          [3145728, 3145728]).1.countP isWrite = 2 := by
  refine ⟨by decide, by decide, by decide, by decide⟩

/-- Claim C7 as amended: once the (monotone) cancel flag is observed at some
flag read performed by the run, no completion status is emitted, at most `k`
chunks are written (none after the observation), and the final completion
progress-100 emission is suppressed — any progress event of value 100 in such
a run is a throttled emission, which requires the cumulative UTF-8 output to
have reached the positive source byte size before the cancellation was
observed. -/
theorem convert_file_chunked_cancelled (fileSize : Nat) (cancel : Nat → Bool)
    (chunks : List Nat) (k : Nat)
    (mono : ∀ i j, i ≤ j → cancel i = true → cancel j = true)
    (hk : cancel k = true)
    (hdur : k ≤ (convert_file_chunked fileSize cancel chunks).2) :
    Event.statusComplete ∉ (convert_file_chunked fileSize cancel chunks).1
      ∧ (convert_file_chunked fileSize cancel chunks).1.countP isWrite ≤ k
      ∧ (Event.progress 100 ∈ (convert_file_chunked fileSize cancel chunks).1 →
          0 < fileSize ∧ fileSize ≤ chunks.sum) := by
  have hfin : cancel (convGo fileSize cancel chunks 0 0 0).2 = true :=
    mono k _ hdur hk
  refine ⟨?_, ?_, ?_⟩
  · intro hmem
    have := convGo_statusComplete_mem fileSize cancel chunks 0 0 0 hmem
    rw [this] at hfin
    exact Bool.false_ne_true hfin
  · have := convGo_writes_le fileSize cancel chunks 0 0 0 k mono hk
    simpa using this
  · intro hmem
    rcases convGo_progress100_mem fileSize cancel chunks 0 0 0 hmem with hl | hr
    · rw [hl] at hfin
      exact absurd hfin Bool.false_ne_true
    · simpa using hr

/-- Witness for the amended C7: the same cancelled 4 MB / two-chunk run; the
hypotheses hold for the monotone schedule that sets the flag from the third
read on, and the conclusions are obtained from the theorem. -/
theorem convert_file_chunked_cancelled_witness :
    ((∀ i j, i ≤ j → (fun n => decide (2 ≤ n)) i = true → (fun n => decide (2 ≤ n)) j = true)
      ∧ (fun n => decide (2 ≤ n)) 3 = true
      ∧ 3 ≤ (convert_file_chunked 4194304 (fun n => decide (2 ≤ n)) [3145728, 3145728]).2)
    ∧ (Event.statusComplete ∉
          (convert_file_chunked 4194304 (fun n => decide (2 ≤ n)) [3145728, 3145728]).1
        ∧ (convert_file_chunked 4194304 (fun n => decide (2 ≤ n))
            [3145728, 3145728]).1.countP isWrite ≤ 3
        ∧ (Event.progress 100 ∈
            (convert_file_chunked 4194304 (fun n => decide (2 ≤ n)) [3145728, 3145728]).1 →
            0 < 4194304 ∧ 4194304 ≤ ([3145728, 3145728] : List Nat).sum)) := by
  refine ⟨⟨?_, by decide, by decide⟩, ?_⟩
  · intro i j hij hi
    simp only [decide_eq_true_eq] at hi ⊢
    omega
  · exact convert_file_chunked_cancelled 4194304 (fun n => decide (2 ≤ n))
      [3145728, 3145728] 3
      (by
        intro i j hij hi
        simp only [decide_eq_true_eq] at hi ⊢
        omega)
      (by decide) (by decide)

/-- Unfolding convGoF when the read returns the empty string (no chunks
left) under an unset flag. -/
theorem convGoF_nil (fileSize : Nat) (cancel : Nat → Bool)
    (step processed lastUpdate : Nat) (h : cancel step = false) :
    convGoF fileSize cancel [] step processed lastUpdate =
      (finalEmit cancel (step + 1), step + 1) := by
  unfold convGoF
  simp [h]

/-- Unfolding convGoF on a chunk when the flag reads false. -/
theorem convGoF_cons (fileSize : Nat) (cancel : Nat → Bool) (c : Nat) (rest : List Nat)
    (step processed lastUpdate : Nat) (h : cancel step = false) :
    convGoF fileSize cancel (c :: rest) step processed lastUpdate =
      if PROGRESS_UPDATE_INTERVAL ≤ processed + c - lastUpdate then
        (Event.write c ::
          Event.progress (min (pyIntDivTimes100 (processed + c) fileSize) 100) ::
          Event.statusProcessing (processed + c) fileSize ::
            (convGoF fileSize cancel rest (step + 1) (processed + c) (processed + c)).1,
          (convGoF fileSize cancel rest (step + 1) (processed + c) (processed + c)).2)
      else
        (Event.write c ::
          (convGoF fileSize cancel rest (step + 1) (processed + c) lastUpdate).1,
          (convGoF fileSize cancel rest (step + 1) (processed + c) lastUpdate).2) := by
  conv_lhs => unfold convGoF
  simp only [h, Bool.false_eq_true, if_false]
  by_cases hth : PROGRESS_UPDATE_INTERVAL ≤ processed + c - lastUpdate
  · simp [hth]
  · simp [hth]

/-- The binary64-faithful converter loop, run with a never-set cancel flag,
produces exactly the amended spec-side trace. -/
theorem convGoF_eq_specNormalTraceF (fileSize : Nat) (cancel : Nat → Bool)
    (chunks : List Nat) (step processed lastUpdate : Nat)
    (hc : ∀ n, cancel n = false) :
    (convGoF fileSize cancel chunks step processed lastUpdate).1 =
      specNormalTraceF fileSize chunks processed lastUpdate := by
  induction chunks generalizing step processed lastUpdate with
  | nil =>
    rw [convGoF_nil _ _ _ _ _ (hc step)]
    unfold finalEmit specNormalTraceF
    simp [hc]
  | cons c rest ih =>
    rw [convGoF_cons _ _ _ _ _ _ _ (hc step)]
    unfold specNormalTraceF
    by_cases hth : PROGRESS_UPDATE_INTERVAL ≤ processed + c - lastUpdate
    · simp only [hth, if_true]
      rw [ih (step + 1)]
      simp [specProgressF, Nat.min_comm]
    · simp only [hth, if_false]
      rw [ih (step + 1)]

/-- Counterexample to claim C8: at a reachable throttled emission with
5,800,000 bytes of cumulative UTF-8 output against a 20,000,000-byte source
(ratio exactly 29/100 — e.g. four 1 MiB ASCII chunks, each below the 5 MB
threshold, then a mixed chunk of 1,605,696 UTF-8 bytes landing the first
emission exactly at 5,800,000), the source's binary64 evaluation of
int((5800000 / 20000000) * 100) yields 28, because double(29/100) * 100
rounds to 28.999999999999996, while the claim's formula
min(100, floor(p * 100 / f)) gives 29: the emitted progress value does not
equal the claimed formula, as the trace's progress-28 event shows. -/
theorem convert_float_progress_ne_exact_formula :
    pyIntDivTimes100 5800000 20000000 = 28
      ∧ specProgress 5800000 20000000 = 29
      ∧ Event.progress 28 ∈
          (convert_file_chunkedF 20000000 (fun _ => false)
            [1048576, 1048576, 1048576, 1048576, 1605696]).1
      ∧ Event.statusProcessing 5800000 20000000 ∈
          (convert_file_chunkedF 20000000 (fun _ => false)
            [1048576, 1048576, 1048576, 1048576, 1605696]).1 := by
  refine ⟨by decide, by decide, by decide, by decide⟩

/-- Claim C8 as amended: a normal (never-cancelled) conversion run over a
non-empty source emits exactly the amended spec-side trace — each throttled
progress value is min(100, int((processedUTF8Bytes / totalSourceBytes) * 100))
evaluated in IEEE binary64 arithmetic as the source evaluates it (which can
fall one below the exact min(100, floor(p * 100 / f)) at reachable
emissions), such an emission occurs only when at least 5 MB of UTF-8 output
accumulated since the previous emission, and completion emits the value 100
exactly once in addition. -/
theorem convert_file_chunkedF_spec_trace (fileSize : Nat) (cancel : Nat → Bool)
    (chunks : List Nat) (_hf : 0 < fileSize) (hc : ∀ n, cancel n = false) :
    (convert_file_chunkedF fileSize cancel chunks).1 =
      specNormalTraceF fileSize chunks 0 0 :=
  convGoF_eq_specNormalTraceF fileSize cancel chunks 0 0 0 hc

/-- Witness for the amended C8: the 20,000,000-byte source producing four
1 MiB chunks and one 1,605,696-byte chunk with no cancellation; the
binary64-faithful code trace equals the amended spec trace. -/
theorem convert_file_chunkedF_spec_trace_witness :
    ((0 : Nat) < 20000000 ∧ (∀ n : Nat, (fun _ => false) n = false))
    ∧ (convert_file_chunkedF 20000000 (fun _ => false)
        [1048576, 1048576, 1048576, 1048576, 1605696]).1 =
        specNormalTraceF 20000000 [1048576, 1048576, 1048576, 1048576, 1605696] 0 0 := by
  refine ⟨⟨by decide, fun n => rfl⟩, ?_⟩
  exact convert_file_chunkedF_spec_trace 20000000 (fun _ => false)
    [1048576, 1048576, 1048576, 1048576, 1605696] (by decide) (fun n => rfl)

/-- Claim C10: a throttled status message (the companion of every progress
computation that divides by the source size) occurs only with at least 5 MB
of accumulated UTF-8 output, which requires a non-empty chunk sequence; since
a non-empty decode of the source requires a non-empty source file, the
divisor is positive whenever the division is evaluated — in particular a
zero-byte source (which decodes to no chunks) never reaches it. -/
theorem convert_file_chunked_no_div_by_zero (fileSize : Nat) (cancel : Nat → Bool)
    (chunks : List Nat) (hdec : chunks ≠ [] → 0 < fileSize) :
    ∀ q g, Event.statusProcessing q g ∈ (convert_file_chunked fileSize cancel chunks).1 →
      PROGRESS_UPDATE_INTERVAL ≤ q ∧ 0 < fileSize := by
  intro q g hmem
  rcases chunks with _ | ⟨c, rest⟩
  · exfalso
    unfold convert_file_chunked at hmem
    by_cases hc : cancel 0
    · rw [convGo_cancel _ _ _ _ _ _ hc] at hmem
      unfold finalEmit at hmem
      by_cases hf : cancel 1 <;> simp_all
    · rw [convGo_nil _ _ _ _ _ (by simpa using hc)] at hmem
      unfold finalEmit at hmem
      by_cases hf : cancel 1 <;> simp_all
  · have hfs : 0 < fileSize := hdec (by simp)
    exact ⟨(convGo_statusProcessing_mem fileSize cancel (c :: rest) 0 0 0 q g hmem).1, hfs⟩

/-- Witness for C10: the 4 MB / two 3 MB chunk run; its status message at
6 MB of output is covered by the theorem. -/
theorem convert_file_chunked_no_div_by_zero_witness :
    (([3145728, 3145728] : List Nat) ≠ [] → (0 : Nat) < 4194304)
    ∧ (PROGRESS_UPDATE_INTERVAL ≤ 6291456 ∧ (0 : Nat) < 4194304) := by
  refine ⟨fun _ => by decide, ?_⟩
  exact convert_file_chunked_no_div_by_zero 4194304 (fun _ => false) [3145728, 3145728]
    (fun _ => by decide) 6291456 4194304 (by decide)

/-- workerRun when the flag is already set at the first check: the run
returns without emitting anything. -/
theorem workerRun_cancel0 (chardet : List Nat → ChardetResult) (cancel : Nat → Bool)
    (file chunks : List Nat) (filePath utf8Path : String) (h0 : cancel 0 = true) :
    workerRun chardet cancel file chunks filePath utf8Path = ([], 1) := by
  unfold workerRun
  simp [h0]

/-- workerRun when the flag is observed at the post-detection check: the run
returns after the detection status and the initial progress 0, emitting no
completion. -/
theorem workerRun_cancel1 (chardet : List Nat → ChardetResult) (cancel : Nat → Bool)
    (file chunks : List Nat) (filePath utf8Path : String)
    (h0 : cancel 0 = false) (h1 : cancel 1 = true) :
    workerRun chardet cancel file chunks filePath utf8Path =
      ([Event.statusDetecting, Event.progress 0], 2) := by
  unfold workerRun
  simp [h0, h1]

/-- workerRun on an already-normalized source (detected encoding utf-8,
utf-8-sig or ascii, case-insensitively). -/
theorem workerRun_alreadyUtf8 (chardet : List Nat → ChardetResult) (cancel : Nat → Bool)
    (file chunks : List Nat) (filePath utf8Path : String)
    (h0 : cancel 0 = false) (h1 : cancel 1 = false)
    (hutf : detect_encoding_fast chardet file ≠ ""
      ∧ (detect_encoding_fast chardet file).toLower ∈ ["utf-8", "utf-8-sig", "ascii"]) :
    workerRun chardet cancel file chunks filePath utf8Path =
      ([Event.statusDetecting, Event.progress 0] ++
        [Event.statusAlreadyUtf8, Event.progress 100, Event.finished filePath ""], 2) := by
  unfold workerRun
  simp [h0, h1, hutf]

/-- workerRun on a source that needs conversion. -/
theorem workerRun_convert (chardet : List Nat → ChardetResult) (cancel : Nat → Bool)
    (file chunks : List Nat) (filePath utf8Path : String)
    (h0 : cancel 0 = false) (h1 : cancel 1 = false)
    (hutf : ¬(detect_encoding_fast chardet file ≠ ""
      ∧ (detect_encoding_fast chardet file).toLower ∈ ["utf-8", "utf-8-sig", "ascii"])) :
    workerRun chardet cancel file chunks filePath utf8Path =
      ([Event.statusDetecting, Event.progress 0] ++
        Event.statusConvertStart (detect_encoding_fast chardet file) ::
          ((convGo file.length cancel chunks 2 0 0).1 ++
            (if cancel ((convGo file.length cancel chunks 2 0 0).2 + 1) then []
             else [Event.finished utf8Path ""])),
        (convGo file.length cancel chunks 2 0 0).2 + 2) := by
  unfold workerRun
  rw [if_neg (by simp [h0]), if_neg (by simp [h1]), if_neg hutf]

/-- Counterexample to claim C1: a run whose cancel flag is set before the
first checkpoint emits no events at all — in particular zero completion
events, not the claimed single completion with an empty result path. -/
theorem workerRun_cancelled_emits_no_completion :
    (workerRun (fun _ => ⟨some "cp949", (9 : Rat) / 10⟩) (fun _ => true)
        [65] [1] "a.txt" "a_utf8.txt").1.countP isFinished = 0
      ∧ (workerRun (fun _ => ⟨some "cp949", (9 : Rat) / 10⟩) (fun _ => true)
          [65] [1] "a.txt" "a_utf8.txt").1 = [] := by
  rw [workerRun_cancel0 _ _ _ _ _ _ rfl]
  exact ⟨rfl, rfl⟩

/-- Claim C1 as amended: on the exception-free paths, a worker run emits at
most one completion event; a run that never observes its (monotone) cancel
flag emits exactly one; and a run that observes the flag at any of the
checkpoints it performs emits no completion event at all — cancellation is
reported by silence, not by a completion with an empty result path. -/
theorem workerRun_completion_events (chardet : List Nat → ChardetResult)
    (cancel : Nat → Bool) (file chunks : List Nat) (filePath utf8Path : String)
    (mono : ∀ i j, i ≤ j → cancel i = true → cancel j = true) :
    (workerRun chardet cancel file chunks filePath utf8Path).1.countP isFinished ≤ 1
      ∧ ((∀ n, cancel n = false) →
          (workerRun chardet cancel file chunks filePath utf8Path).1.countP isFinished = 1)
      ∧ ((∃ k, k < (workerRun chardet cancel file chunks filePath utf8Path).2
            ∧ cancel k = true) →
          (workerRun chardet cancel file chunks filePath utf8Path).1.countP isFinished = 0) := by
  by_cases h0 : cancel 0
  · rw [workerRun_cancel0 _ _ _ _ _ _ h0]
    exact ⟨by simp, fun hc => absurd (hc 0) (by simp [h0]), fun _ => by simp⟩
  · by_cases h1 : cancel 1
    · rw [workerRun_cancel1 _ _ _ _ _ _ (by simpa using h0) h1]
      refine ⟨by simp [isFinished], fun hc => absurd (hc 1) (by simp [h1]), fun _ => ?_⟩
      simp [List.countP_cons, isFinished]
    · by_cases hutf : detect_encoding_fast chardet file ≠ ""
          ∧ (detect_encoding_fast chardet file).toLower ∈ ["utf-8", "utf-8-sig", "ascii"]
      · rw [workerRun_alreadyUtf8 _ _ _ _ _ _ (by simpa using h0) (by simpa using h1) hutf]
        refine ⟨by simp [List.countP_append, List.countP_cons, isFinished],
          fun _ => by simp [List.countP_append, List.countP_cons, isFinished],
          fun hex => ?_⟩
        obtain ⟨k, hk2, hkt⟩ := hex
        have : cancel 1 = true := mono k 1 (by omega) hkt
        exact absurd this (by simp [h1])
      · rw [workerRun_convert _ _ _ _ _ _ (by simpa using h0) (by simpa using h1) hutf]
        have hconv := convGo_no_finished file.length cancel chunks 2 0 0
        by_cases hc2 : cancel ((convGo file.length cancel chunks 2 0 0).2 + 1)
        · refine ⟨?_,
            fun hc => absurd (hc ((convGo file.length cancel chunks 2 0 0).2 + 1))
              (by simp [hc2]), fun _ => ?_⟩
          · simp [hc2, List.countP_append, List.countP_cons, isFinished, hconv]
          · simp [hc2, List.countP_append, List.countP_cons, isFinished, hconv]
        · refine ⟨?_, fun _ => ?_, fun hex => ?_⟩
          · simp [hc2, List.countP_append, List.countP_cons, isFinished, hconv]
          · simp [hc2, List.countP_append, List.countP_cons, isFinished, hconv]
          · obtain ⟨k, hk2, hkt⟩ := hex
            simp only at hk2
            have : cancel ((convGo file.length cancel chunks 2 0 0).2 + 1) = true :=
              mono k _ (by omega) hkt
            exact absurd this (by simp [hc2])

/-- Witness for the amended C1: a never-cancelled run over a one-byte cp949
source; it emits exactly one completion event. -/
theorem workerRun_completion_events_witness :
    (∀ i j : Nat, i ≤ j → (fun _ => false) i = true → (fun _ => false) j = true)
    ∧ (workerRun (fun _ => ⟨some "cp949", (9 : Rat) / 10⟩) (fun _ => false)
        [65] [1] "a.txt" "a_utf8.txt").1.countP isFinished ≤ 1
    ∧ (workerRun (fun _ => ⟨some "cp949", (9 : Rat) / 10⟩) (fun _ => false)
        [65] [1] "a.txt" "a_utf8.txt").1.countP isFinished = 1 := by
  have hmono : ∀ i j : Nat, i ≤ j → (fun _ => false : Nat → Bool) i = true →
      (fun _ => false : Nat → Bool) j = true := by
    intro i j hij hi
    exact absurd hi (by simp)
  have h := workerRun_completion_events (fun _ => ⟨some "cp949", (9 : Rat) / 10⟩)
    (fun _ => false) [65] [1] "a.txt" "a_utf8.txt" hmono
  exact ⟨hmono, h.1, h.2.1 (fun n => rfl)⟩
